import Mathlib

/-!
Shallow embedding of `grigri/queues.py` (queue-metrics reconstruction engine).

Modelling conventions:
* Dates are day numbers (`ℕ`, days since an epoch, already normalized to
  midnight — the code normalizes all grid points with `normalize=True`).
* A pandas `Series` is a `List (ℕ × Option ℚ)` in index order; `none` is `NaN`.
  Number-valued input flow series are injected with `toR`.
* The wall clock `datetime.now()` is threaded explicitly as `today : ℕ`.
* A resampling frequency is a `Freq`: `period d` is the (left-labelled) start
  of the period containing day `d`.  `Freq.daily` is `freq='d'` exactly; the
  weekly/monthly/yearly rules are instances of the same interface.
* pandas alignment of two series (binary arithmetic without `fill_value`)
  keeps the left order when the two indexes coincide and otherwise takes the
  sorted union of the indexes, putting `NaN` where either side is missing;
  `fill_value=0` arithmetic fills a missing/NaN side with 0 unless both are
  missing.  Division follows IEEE float rules: `x/0` is a signed infinity for
  `x ≠ 0`, `0/0` and any operation with `NaN` is `NaN`.
-/

namespace Grigri

/-- A pandas Series over a datetime index: date/value pairs in index order,
`none` standing for `NaN`. -/
abbrev RSeries := List (ℕ × Option ℚ)

/-- Inject a number-valued series (a well-formed flow series) into `RSeries`. -/
def toR (s : List (ℕ × ℚ)) : RSeries := s.map (fun p => (p.1, some p.2))

/-- A resampling frequency, described by the map sending a day to the first
day of its period ('d': the day itself; 'w'/'m'/'a': start of week/month/year). -/
structure Freq where
  period : ℕ → ℕ
  period_le : ∀ d, period d ≤ d
  mono : ∀ ⦃d e : ℕ⦄, d ≤ e → period d ≤ period e
  idem : ∀ d, period (period d) = period d

/-- The frequency `'d'`: every day is its own period. -/
def Freq.daily : Freq :=
  { period := fun d => d
    period_le := fun _ => le_rfl
    mono := fun _ _ h => h
    idem := fun _ => rfl }

/-- Value a series holds at a date: `NaN` when the date is absent from the
index (pandas alignment semantics). -/
def lookV (s : RSeries) (d : ℕ) : Option ℚ := (List.lookup d s).getD none

/-- `s.fillna(0)`. -/
def fillna0 (s : RSeries) : RSeries := s.map (fun p => (p.1, some (p.2.getD 0)))

/-- `s[:d]` label slicing on an ascending datetime index: keep dates `≤ d`. -/
def trunc (d : ℕ) (s : RSeries) : RSeries := s.filter (fun p => decide (p.1 ≤ d))

/-- Ascending order on index entries, for `sort_index()`. -/
def ascR (a b : ℕ × Option ℚ) : Prop := a.1 ≤ b.1

/-- Descending order on index entries, for `sort_index(ascending=False)`. -/
def descR (a b : ℕ × Option ℚ) : Prop := b.1 ≤ a.1

instance : DecidableRel ascR := fun a b => Nat.decLe a.1 b.1

instance : DecidableRel descR := fun a b => Nat.decLe b.1 a.1

instance : IsTotal (ℕ × Option ℚ) ascR := ⟨fun a b => Nat.le_total a.1 b.1⟩

instance : IsTotal (ℕ × Option ℚ) descR := ⟨fun a b => Nat.le_total b.1 a.1⟩

instance : IsTrans (ℕ × Option ℚ) ascR := ⟨fun _ _ _ h h' => Nat.le_trans h h'⟩

instance : IsTrans (ℕ × Option ℚ) descR := ⟨fun _ _ _ h h' => Nat.le_trans h' h⟩

/-- `s.sort_index()`. -/
def sortAsc (s : RSeries) : RSeries := List.insertionSort ascR s

/-- `s.sort_index(ascending=False)`. -/
def sortDesc (s : RSeries) : RSeries := List.insertionSort descR s

/-- Running sum with pandas `cumsum` NaN policy (`skipna`): a `NaN` entry
stays `NaN` and does not contribute to the running total. -/
def cumsumAux : ℚ → RSeries → RSeries
  | _, [] => []
  | acc, (d, none) :: t => (d, none) :: cumsumAux acc t
  | acc, (d, some q) :: t => (d, some (acc + q)) :: cumsumAux (acc + q) t

/-- `s.cumsum()` in the series' own (positional) order. -/
def cumsumR (s : RSeries) : RSeries := cumsumAux 0 s

/-- `B - s` for a scalar `B` (elementwise; `NaN` propagates). -/
def scalarSub (B : ℚ) (s : RSeries) : RSeries :=
  s.map (fun p => (p.1, p.2.map (fun q => B - q)))

/-- Sorted deduplicated union of two series' indexes (pandas `Index.union`
falls back to concatenate-and-sort for indexes that are not both ascending). -/
def unionDatesAsc (a b : RSeries) : List ℕ :=
  List.insertionSort (fun x y => x ≤ y) ((a.map Prod.fst ++ b.map Prod.fst).dedup)

/-- pandas binary alignment: identical indexes combine positionally and keep
the left operand's order; different indexes combine on the sorted union of
the indexes, reading a missing date as `NaN`. -/
def alignWith {γ : Type} (g : Option ℚ → Option ℚ → γ) (a b : RSeries) :
    List (ℕ × γ) :=
  if a.map Prod.fst = b.map Prod.fst then
    (a.zip b).map (fun pq => (pq.1.1, g pq.1.2 pq.2.2))
  else
    (unionDatesAsc a b).map (fun d => (d, g (lookV a d) (lookV b d)))

/-- Addition under plain alignment: `NaN` if either side is missing. -/
def addOpt (x y : Option ℚ) : Option ℚ :=
  match x, y with
  | some p, some q => some (p + q)
  | _, _ => none

/-- Subtraction with `fill_value=0`: a missing side counts as 0 unless both
sides are missing. -/
def subF0 (x y : Option ℚ) : Option ℚ :=
  match x, y with
  | none, none => none
  | _, _ => some (x.getD 0 - y.getD 0)

/-- `s.fillna(method='ffill')`: propagate the last valid observation forward
in positional order; leading `NaN`s stay `NaN`. -/
def ffillAux : Option ℚ → RSeries → RSeries
  | _, [] => []
  | acc, (d, none) :: t => (d, acc) :: ffillAux acc t
  | _, (d, some q) :: t => (d, some q) :: ffillAux (some q) t

/-- `s.fillna(method='ffill')`. -/
def ffill (s : RSeries) : RSeries := ffillAux none s

/-- `s[s < 0] = 0`: clamp negative numbers to 0; `NaN` compares false and is
left alone. -/
def clamp0 (s : RSeries) : RSeries :=
  s.map (fun p => (p.1, p.2.map (fun q => if q < 0 then 0 else q)))

/-- The minimum of a series index (`s.index.min()`), `none` when empty. -/
def dLo : List ℕ → Option ℕ
  | [] => none
  | d :: t =>
    some (match dLo t with
          | none => d
          | some m => min d m)

/-- The maximum of a series index (`s.index.max()`), `none` when empty. -/
def dHi : List ℕ → Option ℕ
  | [] => none
  | d :: t =>
    some (match dHi t with
          | none => d
          | some m => max d m)

/-- Aggregation methods used with `resample(freq, how=...)`. -/
inductive Agg where
  | first
  | sum
  | mean
  | count
deriving DecidableEq

/-- Apply an aggregation to the values of one resampling bin, with pandas NaN
policy: `first` is the first non-NaN value, `sum`/`mean` skip NaN and give
NaN on an empty bin, `count` counts non-NaN values. -/
def aggRun : Agg → List (Option ℚ) → Option ℚ
  | .first, vs => (vs.filterMap id).head?
  | .sum, vs =>
    match vs.filterMap id with
    | [] => none
    | ws => some ws.sum
  | .mean, vs =>
    match vs.filterMap id with
    | [] => none
    | ws => some (ws.sum / (ws.length : ℚ))
  | .count, vs => some ((vs.filterMap id).length : ℚ)

/-- Left-edge labels of the consecutive resampling bins covering `[lo, hi]`:
all period starts from the period of `lo` through the period of `hi`. -/
def binLabels (f : Freq) (lo hi : ℕ) : List ℕ :=
  (List.range (f.period hi + 1)).filter
    (fun p => decide (f.period p = p ∧ f.period lo ≤ p))

/-- `s.resample(freq, how=...)`: bin the series into consecutive periods
spanning its index range and aggregate each bin; empty input gives an empty
result. -/
def resample (f : Freq) (how : Agg) (s : RSeries) : RSeries :=
  match dLo (s.map Prod.fst), dHi (s.map Prod.fst) with
  | some lo, some hi =>
    (binLabels f lo hi).map
      (fun p =>
        (p, aggRun how ((s.filter (fun e => decide (f.period e.1 = p))).map Prod.snd)))
  | _, _ => []

/-- `s[b:e]` label slicing on an ascending index: keep dates in `[b, e]`. -/
def sliceRange (b e : ℕ) (s : RSeries) : RSeries :=
  s.filter (fun p => decide (b ≤ p.1 ∧ p.1 ≤ e))

/-- `pd.date_range(lo, hi)` at daily frequency: every day from `lo` to `hi`
inclusive (empty when `lo > hi`). -/
def dailyRange (lo hi : ℕ) : List ℕ := List.range' lo (hi + 1 - lo)

/-- `pd.date_range(lo, hi, freq=f)`: the freq-aligned points (period starts)
lying inside `[lo, hi]`; the first grid point is the first aligned point at
or after `lo`. -/
def dateRange (f : Freq) (lo hi : ℕ) : List ℕ :=
  (List.range (hi + 1)).filter (fun p => decide (f.period p = p ∧ lo ≤ p))

/-- `s.reindex(dates)` (no fill value): missing dates become `NaN`. -/
def reindexN (dates : List ℕ) (s : RSeries) : RSeries :=
  dates.map (fun d => (d, lookV s d))

/-- `s.reindex(dates, fill_value=0)`: missing dates become 0. -/
def reindexF (dates : List ℕ) (s : RSeries) : RSeries :=
  dates.map (fun d => (d, (List.lookup d s).getD (some 0)))

/-- `_cumsum(flow)`: reindex the flow onto the daily grid from its first date
through today, filling gaps with 0, then take the running sum.  (On an empty
flow the source raises inside `pd.date_range`; the model returns the empty
series and claims about `_cumsum` assume a nonempty flow.) -/
def _cumsum (flow : RSeries) (today : ℕ) : RSeries :=
  match dLo (flow.map Prod.fst) with
  | none => []
  | some lo => cumsumR (reindexF (dailyRange lo today) flow)

/-- `s.shift(1)`: keep the index, move every value one position later; the
first value becomes `NaN`.  -/
def shift1 (s : RSeries) : RSeries :=
  (s.map Prod.fst).zip (none :: s.map Prod.snd)

/-- `reverse_backlog` up to and including the re-sort to ascending order
(steps 1–6 of the algorithm): truncate both flows at the anchor date, take
descending cumulative sums, combine them around the anchor value, forward
fill, and sort back to ascending order.  This is the series before the final
resampling and before the clamp of negatives. -/
def reverse_backlog_raw (inflows outflows : RSeries) (backlog_start : ℚ)
    (date_start : ℕ) : RSeries :=
  let cum_inflow := cumsumR (fillna0 (sortDesc (trunc date_start inflows)))
  let cum_outflow := cumsumR (fillna0 (sortDesc (trunc date_start outflows)))
  let backlog := alignWith addOpt (scalarSub backlog_start cum_inflow) cum_outflow
  sortAsc (ffill backlog)

/-- `reverse_backlog(inflows, outflows, backlog_start, date_start, freq)`:
the raw reverse accumulation, resampled taking the first value per period,
with negative values clamped to 0. -/
def reverse_backlog (inflows outflows : RSeries) (backlog_start : ℚ)
    (date_start : ℕ) (f : Freq) : RSeries :=
  clamp0 (resample f .first (reverse_backlog_raw inflows outflows backlog_start date_start))

/-- `backlog(inflows, outflows, freq)`: the unanchored flow balance — the
difference of the two cumulative flows, resampled taking the first value per
period, sliced to the min/max dates of the (already today-extended)
difference series. -/
def backlog (inflows outflows : RSeries) (today : ℕ) (f : Freq) : RSeries :=
  let L := alignWith subF0 (_cumsum inflows today) (_cumsum outflows today)
  match dLo (L.map Prod.fst), dHi (L.map Prod.fst) with
  | some b, some e => sliceRange b e (resample f .first L)
  | _, _ => resample f .first L

/-- `throughput(outflows, freq)`: first differences of the cumulative
outflow (a missing predecessor counting as 0), resampled by summation, with
remaining gaps filled with 0. -/
def throughput (outflows : RSeries) (today : ℕ) (f : Freq) : RSeries :=
  let c := _cumsum outflows today
  fillna0 (resample f .sum (alignWith subF0 c (shift1 c)))

/-- `arrivals(inflows, freq)`: identical to `throughput` but over inflows. -/
def arrivals (inflows : RSeries) (today : ℕ) (f : Freq) : RSeries :=
  let c := _cumsum inflows today
  fillna0 (resample f .sum (alignWith subF0 c (shift1 c)))

/-- A float value as produced by the `wait` division: a number, a signed
infinity, or `NaN`. -/
inductive FVal where
  | num : ℚ → FVal
  | pinf
  | ninf
  | nan
deriving DecidableEq, Repr

/-- Float division of two possibly-missing means: missing operands give
`NaN`; division by 0 gives `NaN` for numerator 0 and a signed infinity
otherwise. -/
def wdiv (x y : Option ℚ) : FVal :=
  match x, y with
  | some p, some q =>
    if q = 0 then (if p = 0 then .nan else if 0 < p then .pinf else .ninf)
    else .num (p / q)
  | _, _ => .nan

/-- `wait(inflows, outflows, freq)`: Little's Law — the per-period mean of
the unanchored backlog divided by the per-period mean of arrivals, with NaN
entries dropped (`dropna` keeps infinities). -/
def wait (inflows outflows : RSeries) (today : ℕ) (f : Freq) : List (ℕ × FVal) :=
  let L := backlog inflows outflows today f
  let k := arrivals inflows today f
  let w := alignWith wdiv (resample f .mean L) (resample f .mean k)
  w.filter (fun p => decide (p.2 ≠ FVal.nan))

/-- One row of the raw event table: a possibly-null timestamp and a
possibly-null weight column. -/
structure Event where
  ts : Option ℕ
  w : Option ℚ

/-- `flow_extract(df, flow_date_column, weight_column, freq)`: the grid is
the freq date range over the min/max of the (non-null) timestamps, both
defaulting to today when there are none; rows with a null timestamp (and,
when weighting, a null weight) are dropped; the rest are resampled by weight
sum or by count; finally the result is reindexed onto the grid and NaN gaps
are filled with 0. -/
def flow_extract (rows : List Event) (useWeight : Bool) (f : Freq)
    (today : ℕ) : RSeries :=
  let tss := rows.filterMap Event.ts
  let start_date := (dLo tss).getD today
  let end_date := (dHi tss).getD today
  let grid := dateRange f start_date end_date
  let flow : RSeries :=
    if useWeight then
      resample f .sum
        (rows.filterMap (fun r => r.ts.bind (fun t => r.w.map (fun w => (t, some w)))))
    else
      resample f .count (tss.map (fun t => (t, some (1 : ℚ))))
  fillna0 (reindexN grid flow)

/-- The reading of "the value is a non-negative number" for a possibly-NaN
series entry: the entry holds an actual number and that number is `≥ 0`. -/
def hasNonnegValue (v : Option ℚ) : Prop := ∃ q, v = some q ∧ 0 ≤ q

/-- Direct one-pass first differences (each value minus its predecessor,
`fill_value=0`): the closed form of aligning a series with its own
`shift(1)`, proved equal to it in `alignWith_shift1`. -/
def diffL : Option ℚ → RSeries → RSeries
  | _, [] => []
  | prev, (d, v) :: t => (d, subF0 v prev) :: diffL v t

/-- Sum of the numeric values of a series (`NaN` counting as 0). -/
def valsum (s : RSeries) : ℚ := (s.map (fun p => p.2.getD 0)).sum

/-- The numeric value at the last date of a series (0 when empty or `NaN`). -/
def lastVal (s : RSeries) : ℚ := (s.getLast?.map (fun p => p.2.getD 0)).getD 0

/-! ## Helper lemmas -/

theorem lookup_cons_self {α : Type} (k : ℕ) (w : α) (t : List (ℕ × α)) :
    List.lookup k ((k, w) :: t) = some w := by
  simp [List.lookup_cons]

theorem lookup_cons_ne {α : Type} {d k : ℕ} (hne : d ≠ k) (w : α)
    (t : List (ℕ × α)) : List.lookup d ((k, w) :: t) = List.lookup d t := by
  rw [List.lookup_cons, beq_eq_false_iff_ne.mpr hne]

theorem lookup_map_fn {α : Type} (h : ℕ → α) {grid : List ℕ} {d : ℕ}
    (hd : d ∈ grid) :
    List.lookup d (grid.map (fun x => (x, h x))) = some (h d) := by
  induction grid with
  | nil => cases hd
  | cons x t ih =>
    rw [List.map_cons]
    by_cases hx : d = x
    · subst hx; exact lookup_cons_self _ _ _
    · rw [lookup_cons_ne hx]
      exact ih ((List.mem_cons.1 hd).resolve_left hx)

theorem eq_of_lookup_map_fn {α : Type} (h : ℕ → α) {grid : List ℕ} {d : ℕ}
    {v : α} (hv : List.lookup d (grid.map (fun x => (x, h x))) = some v) :
    v = h d := by
  induction grid with
  | nil => cases hv
  | cons x t ih =>
    rw [List.map_cons] at hv
    by_cases hx : d = x
    · subst hx
      rw [lookup_cons_self] at hv
      exact (Option.some.injEq _ _ ▸ hv).symm
    · rw [lookup_cons_ne hx] at hv
      exact ih hv

theorem lookup_eq_none_of_not_mem {α : Type} {l : List (ℕ × α)} {d : ℕ}
    (hd : d ∉ l.map Prod.fst) : List.lookup d l = none := by
  induction l with
  | nil => rfl
  | cons p t ih =>
    obtain ⟨k, w⟩ := p
    simp only [List.map_cons, List.mem_cons, not_or] at hd
    rw [lookup_cons_ne hd.1]
    exact ih hd.2

theorem mem_of_lookup_eq_some {α : Type} {l : List (ℕ × α)} {d : ℕ} {v : α}
    (hv : List.lookup d l = some v) : (d, v) ∈ l := by
  induction l with
  | nil => cases hv
  | cons p t ih =>
    obtain ⟨k, w⟩ := p
    by_cases hx : d = k
    · subst hx
      rw [lookup_cons_self] at hv
      rw [Option.some.injEq] at hv
      simp [hv]
    · rw [lookup_cons_ne hx] at hv
      exact List.mem_cons_of_mem _ (ih hv)

theorem lookup_of_mem_nodup {α : Type} {l : List (ℕ × α)} {d : ℕ} {v : α}
    (hnd : (l.map Prod.fst).Nodup) (hm : (d, v) ∈ l) :
    List.lookup d l = some v := by
  induction l with
  | nil => cases hm
  | cons p t ih =>
    obtain ⟨k, w⟩ := p
    simp only [List.map_cons, List.nodup_cons] at hnd
    rcases List.mem_cons.1 hm with he | hmem
    · rw [Prod.mk.injEq] at he
      rw [he.1, he.2]
      exact lookup_cons_self _ _ _
    · have hne : d ≠ k := by
        intro he
        exact hnd.1 (he ▸ List.mem_map_of_mem Prod.fst hmem)
      rw [lookup_cons_ne hne]
      exact ih hnd.2 hmem

theorem dLo_mem : ∀ {l : List ℕ} {m : ℕ}, dLo l = some m → m ∈ l := by
  intro l
  induction l with
  | nil => intro m h; cases h
  | cons d t ih =>
    intro m h
    simp only [dLo] at h
    rcases ht : dLo t with - | m'
    · rw [ht] at h
      simp only [Option.some.injEq] at h
      exact h ▸ List.mem_cons_self d t
    · rw [ht] at h
      simp only [Option.some.injEq] at h
      rcases min_cases d m' with ⟨he, -⟩ | ⟨he, -⟩
      · exact (h ▸ he) ▸ List.mem_cons_self d t
      · exact List.mem_cons_of_mem _ ((h ▸ he) ▸ ih ht)

theorem dLo_le : ∀ {l : List ℕ} {m d : ℕ}, dLo l = some m → d ∈ l → m ≤ d := by
  intro l
  induction l with
  | nil => intro m d h; cases h
  | cons x t ih =>
    intro m d h hd
    simp only [dLo] at h
    rcases ht : dLo t with - | m'
    · rw [ht] at h
      have hte : t = [] := by
        cases t with
        | nil => rfl
        | cons y s => simp [dLo] at ht
      simp only [Option.some.injEq] at h
      rcases List.mem_cons.1 hd with rfl | hmem
      · exact h.ge
      · rw [hte] at hmem; cases hmem
    · rw [ht] at h
      simp only [Option.some.injEq] at h
      rcases List.mem_cons.1 hd with rfl | hmem
      · exact h ▸ min_le_left _ _
      · exact le_trans (h ▸ min_le_right _ _) (ih ht hmem)

theorem dHi_mem : ∀ {l : List ℕ} {m : ℕ}, dHi l = some m → m ∈ l := by
  intro l
  induction l with
  | nil => intro m h; cases h
  | cons d t ih =>
    intro m h
    simp only [dHi] at h
    rcases ht : dHi t with - | m'
    · rw [ht] at h
      simp only [Option.some.injEq] at h
      exact h ▸ List.mem_cons_self d t
    · rw [ht] at h
      simp only [Option.some.injEq] at h
      rcases max_cases d m' with ⟨he, -⟩ | ⟨he, -⟩
      · exact (h ▸ he) ▸ List.mem_cons_self d t
      · exact List.mem_cons_of_mem _ ((h ▸ he) ▸ ih ht)

theorem dHi_ge : ∀ {l : List ℕ} {m d : ℕ}, dHi l = some m → d ∈ l → d ≤ m := by
  intro l
  induction l with
  | nil => intro m d h; cases h
  | cons x t ih =>
    intro m d h hd
    simp only [dHi] at h
    rcases ht : dHi t with - | m'
    · rw [ht] at h
      have hte : t = [] := by
        cases t with
        | nil => rfl
        | cons y s => simp [dHi] at ht
      simp only [Option.some.injEq] at h
      rcases List.mem_cons.1 hd with rfl | hmem
      · exact h.le
      · rw [hte] at hmem; cases hmem
    · rw [ht] at h
      simp only [Option.some.injEq] at h
      rcases List.mem_cons.1 hd with rfl | hmem
      · exact h ▸ le_max_left _ _
      · exact le_trans (ih ht hmem) (h ▸ le_max_right _ _)

theorem dLo_eq_none {l : List ℕ} : dLo l = none ↔ l = [] := by
  cases l with
  | nil => simp [dLo]
  | cons d t => simp [dLo]

theorem dHi_eq_none {l : List ℕ} : dHi l = none ↔ l = [] := by
  cases l with
  | nil => simp [dHi]
  | cons d t => simp [dHi]

theorem map_fst_map_pair {α : Type} (g : ℕ → α) (dates : List ℕ) :
    (dates.map (fun d => (d, g d))).map Prod.fst = dates := by
  induction dates with
  | nil => rfl
  | cons d t ih => simp only [List.map_cons, ih]

theorem fillna0_reindexN (dates : List ℕ) (s : RSeries) :
    fillna0 (reindexN dates s) =
      dates.map (fun d => (d, some ((lookV s d).getD 0))) := by
  induction dates with
  | nil => rfl
  | cons d t ih =>
    simp only [reindexN, fillna0, List.map_cons] at ih ⊢
    rw [ih]

theorem dateRange_nodup (f : Freq) (lo hi : ℕ) : (dateRange f lo hi).Nodup :=
  (List.nodup_range _).filter _

theorem dateRange_self (n : ℕ) : dateRange Freq.daily n n = [n] := by
  unfold dateRange
  rw [List.range_succ, List.filter_append]
  have h1 : (List.range n).filter
      (fun p => decide (Freq.daily.period p = p ∧ n ≤ p)) = [] := by
    rw [List.filter_eq_nil_iff]
    intro a ha
    have : a < n := List.mem_range.1 ha
    simp [Freq.daily, Nat.not_le.2 this]
  rw [h1]
  simp [Freq.daily]

theorem resample_lookup_eq {f : Freq} {how : Agg} {s : RSeries} {p : ℕ}
    {v : Option ℚ} (hv : List.lookup p (resample f how s) = some v) :
    v = aggRun how ((s.filter (fun e => decide (f.period e.1 = p))).map Prod.snd) := by
  unfold resample at hv
  rcases h1 : dLo (s.map Prod.fst) with - | lo <;> rw [h1] at hv
  · cases hv
  · rcases h2 : dHi (s.map Prod.fst) with - | hi <;> rw [h2] at hv
    · cases hv
    · exact eq_of_lookup_map_fn _ hv

theorem toR_map_fst (s : List (ℕ × ℚ)) :
    (toR s).map Prod.fst = s.map Prod.fst := by
  induction s with
  | nil => rfl
  | cons p t ih => simp only [toR, List.map_cons] at ih ⊢; rw [ih]

theorem toR_lookup (s : List (ℕ × ℚ)) (d : ℕ) :
    List.lookup d (toR s) = (List.lookup d s).map some := by
  induction s with
  | nil => rfl
  | cons p t ih =>
    obtain ⟨k, w⟩ := p
    by_cases hx : d = k
    · subst hx
      simp only [toR, List.map_cons, lookup_cons_self]
      rfl
    · simp only [toR, List.map_cons, lookup_cons_ne hx] at ih ⊢
      exact ih

theorem mem_dailyRange {d lo hi : ℕ} :
    d ∈ dailyRange lo hi ↔ lo ≤ d ∧ d ≤ hi := by
  unfold dailyRange
  rw [List.mem_range']
  constructor
  · rintro ⟨i, hi', rfl⟩; omega
  · intro h; exact ⟨d - lo, by omega, by omega⟩

theorem cumsum_map_fst (s : RSeries) :
    ∀ a : ℚ, (cumsumAux a s).map Prod.fst = s.map Prod.fst := by
  induction s with
  | nil => intro a; rfl
  | cons p t ih =>
    intro a
    obtain ⟨d, v⟩ := p
    cases v with
    | none => simp only [cumsumAux, List.map_cons, ih]
    | some q => simp only [cumsumAux, List.map_cons, ih]

theorem cumsum_all_some {s : RSeries} (h : ∀ p ∈ s, ∃ q, p.2 = some q ∧ 0 ≤ q) :
    ∀ (a : ℚ), ∀ p ∈ cumsumAux a s, ∃ q, p.2 = some q ∧ a ≤ q := by
  induction s with
  | nil => intro a p hp; cases hp
  | cons e t ih =>
    intro a p hp
    obtain ⟨d, v⟩ := e
    obtain ⟨q, hq, hq0⟩ := h (d, v) (List.mem_cons_self _ _)
    rw [show ((d, v) : ℕ × Option ℚ).2 = v from rfl] at hq
    subst hq
    simp only [cumsumAux] at hp
    rcases List.mem_cons.1 hp with rfl | hmem
    · exact ⟨a + q, rfl, le_add_of_nonneg_right hq0⟩
    · obtain ⟨r, hr, har⟩ :=
        ih (fun p hp => h p (List.mem_cons_of_mem _ hp)) (a + q) p hmem
      exact ⟨r, hr, le_trans (le_add_of_nonneg_right hq0) har⟩

theorem cumsum_chain {s : RSeries} (h : ∀ p ∈ s, ∃ q, p.2 = some q ∧ 0 ≤ q) :
    ∀ (a : ℚ), List.Chain' (· ≤ ·) ((cumsumAux a s).filterMap Prod.snd) := by
  induction s with
  | nil => intro a; simp [cumsumAux]
  | cons e t ih =>
    intro a
    obtain ⟨d, v⟩ := e
    obtain ⟨q, hq, hq0⟩ := h (d, v) (List.mem_cons_self _ _)
    rw [show ((d, v) : ℕ × Option ℚ).2 = v from rfl] at hq
    subst hq
    have ht : ∀ p ∈ t, ∃ r, p.2 = some r ∧ 0 ≤ r :=
      fun p hp => h p (List.mem_cons_of_mem _ hp)
    simp only [cumsumAux, List.filterMap_cons]
    rw [List.chain'_cons']
    constructor
    · intro y hy
      have hy' : y ∈ (cumsumAux (a + q) t).filterMap Prod.snd :=
        List.mem_of_mem_head? hy
      obtain ⟨p, hp, hpy⟩ := List.mem_filterMap.1 hy'
      obtain ⟨r, hr, har⟩ := cumsum_all_some ht (a + q) p hp
      rw [hr] at hpy
      exact (Option.some.injEq _ _ ▸ hpy) ▸ har
    · exact ih ht (a + q)

theorem shift1_map_fst (s : RSeries) :
    (shift1 s).map Prod.fst = s.map Prod.fst := by
  unfold shift1
  exact List.map_fst_zip _ _ (by simp [Nat.le_succ])

theorem zip_shift_diff :
    ∀ (t : RSeries) (prev : Option ℚ),
      (t.zip ((t.map Prod.fst).zip (prev :: t.map Prod.snd))).map
        (fun pq => (pq.1.1, subF0 pq.1.2 pq.2.2)) = diffL prev t := by
  intro t
  induction t with
  | nil => intro prev; rfl
  | cons e t ih =>
    intro prev
    obtain ⟨d, v⟩ := e
    simp only [List.map_cons, List.zip_cons_cons, diffL]
    rw [ih]

theorem alignWith_shift1 (s : RSeries) :
    alignWith subF0 s (shift1 s) = diffL none s := by
  unfold alignWith
  rw [if_pos (shift1_map_fst s).symm]
  exact zip_shift_diff s none

theorem diffL_map_snd_cumsum :
    ∀ (t : RSeries), (∀ p ∈ t, ∃ q, p.2 = some q) → ∀ (a : ℚ),
      (diffL (some a) (cumsumAux a t)).map Prod.snd = t.map Prod.snd := by
  intro t
  induction t with
  | nil => intro _ a; rfl
  | cons e t ih =>
    intro h a
    obtain ⟨d, v⟩ := e
    obtain ⟨q, hq⟩ := h (d, v) (List.mem_cons_self _ _)
    rw [show ((d, v) : ℕ × Option ℚ).2 = v from rfl] at hq
    subst hq
    simp only [cumsumAux, diffL, List.map_cons]
    rw [ih (fun p hp => h p (List.mem_cons_of_mem _ hp)) (a + q)]
    have hsub : subF0 (some (a + q)) (some a) = some q := by
      simp [subF0]
    rw [hsub]

theorem diffL_map_snd_cumsum0 (t : RSeries)
    (h : ∀ p ∈ t, ∃ q, p.2 = some q) :
    (diffL none (cumsumR t)).map Prod.snd = t.map Prod.snd := by
  cases t with
  | nil => rfl
  | cons e t =>
    obtain ⟨d, v⟩ := e
    obtain ⟨q, hq⟩ := h (d, v) (List.mem_cons_self _ _)
    rw [show ((d, v) : ℕ × Option ℚ).2 = v from rfl] at hq
    subst hq
    simp only [cumsumR, cumsumAux, diffL, List.map_cons]
    rw [diffL_map_snd_cumsum t (fun p hp => h p (List.mem_cons_of_mem _ hp))]
    have hsub : subF0 (some (0 + q)) none = some q := by
      simp [subF0]
    rw [hsub]

theorem valsum_cons (e : ℕ × Option ℚ) (l : RSeries) :
    valsum (e :: l) = e.2.getD 0 + valsum l := by
  simp [valsum]

theorem valsum_fillna0 (s : RSeries) : valsum (fillna0 s) = valsum s := by
  induction s with
  | nil => rfl
  | cons e t ih =>
    simp only [fillna0, List.map_cons] at ih ⊢
    rw [valsum_cons, valsum_cons, ih]
    rfl

theorem valsum_eq_of_map_snd_eq {s t : RSeries}
    (h : s.map Prod.snd = t.map Prod.snd) : valsum s = valsum t := by
  unfold valsum
  rw [show (fun p : ℕ × Option ℚ => p.2.getD 0) =
        (fun v : Option ℚ => v.getD 0) ∘ Prod.snd from rfl,
    ← List.map_map, ← List.map_map, h]

theorem cumsumAux_ne_nil {t : RSeries} (h : t ≠ []) (a : ℚ) :
    cumsumAux a t ≠ [] := by
  intro he
  have := cumsum_map_fst t a
  rw [he] at this
  exact h (List.map_eq_nil_iff.1 this.symm)

theorem lastVal_cons {l : RSeries} (x : ℕ × Option ℚ) (hl : l ≠ []) :
    lastVal (x :: l) = lastVal l := by
  unfold lastVal
  rw [List.getLast?_cons]
  rcases h : l.getLast? with - | y
  · exact absurd (List.getLast?_eq_none_iff.1 h) hl
  · rfl

theorem cumsum_lastVal :
    ∀ (t : RSeries), (∀ p ∈ t, ∃ q, p.2 = some q) → ∀ (a : ℚ), t ≠ [] →
      lastVal (cumsumAux a t) = a + valsum t := by
  intro t
  induction t with
  | nil => intro _ a h; exact absurd rfl h
  | cons e t ih =>
    intro h a _
    obtain ⟨d, v⟩ := e
    obtain ⟨q, hq⟩ := h (d, v) (List.mem_cons_self _ _)
    rw [show ((d, v) : ℕ × Option ℚ).2 = v from rfl] at hq
    subst hq
    simp only [cumsumAux]
    cases t with
    | nil =>
      simp [lastVal, valsum, cumsumAux]
    | cons e' t' =>
      rw [lastVal_cons _ (cumsumAux_ne_nil (List.cons_ne_nil e' t') (a + q)),
        ih (fun p hp => h p (List.mem_cons_of_mem _ hp)) (a + q)
          (List.cons_ne_nil e' t'),
        valsum_cons]
      show a + q + valsum (e' :: t') = a + (q + valsum (e' :: t'))
      ring

theorem sum_filterMap_id (vs : List (Option ℚ)) :
    (vs.filterMap id).sum = (vs.map (fun v => v.getD 0)).sum := by
  induction vs with
  | nil => rfl
  | cons v t ih =>
    cases v with
    | none => simpa using ih
    | some q => simpa using ih

theorem aggRun_sum_getD (vs : List (Option ℚ)) :
    (aggRun Agg.sum vs).getD 0 = (vs.map (fun v => v.getD 0)).sum := by
  rw [← sum_filterMap_id]
  rcases h : vs.filterMap id with - | ⟨y, ys⟩ <;> simp [aggRun, h]

theorem sum_map_add (g h : ℕ → ℚ) (l : List ℕ) :
    (l.map (fun x => g x + h x)).sum = (l.map g).sum + (l.map h).sum := by
  induction l with
  | nil => simp
  | cons x t ih => simp only [List.map_cons, List.sum_cons, ih]; ring

theorem sum_if_single {c : ℚ} {key : ℕ} :
    ∀ {labels : List ℕ}, labels.Nodup → key ∈ labels →
      (labels.map (fun p => if key = p then c else 0)).sum = c := by
  intro labels
  induction labels with
  | nil => intro _ h; cases h
  | cons x t ih =>
    intro hnd hmem
    rw [List.nodup_cons] at hnd
    rcases List.mem_cons.1 hmem with rfl | hmem'
    · rw [List.map_cons, List.sum_cons, if_pos rfl]
      have hz : (t.map (fun p => if key = p then c else 0)).sum = 0 := by
        apply List.sum_eq_zero
        intro x hx
        obtain ⟨p, hp, rfl⟩ := List.mem_map.1 hx
        rw [if_neg]
        intro he
        exact hnd.1 (he ▸ hp)
      rw [hz, add_zero]
    · have hne : key ≠ x := by
        intro he
        exact hnd.1 (he ▸ hmem')
      rw [List.map_cons, List.sum_cons, if_neg hne, zero_add]
      exact ih hnd.2 hmem'

theorem sum_filter_partition (f : Freq) :
    ∀ (r : RSeries) {labels : List ℕ}, labels.Nodup →
      (∀ e ∈ r, f.period e.1 ∈ labels) →
      (labels.map
        (fun p => valsum (r.filter (fun e => decide (f.period e.1 = p))))).sum =
        valsum r := by
  intro r
  induction r with
  | nil =>
    intro labels _ _
    rw [show valsum ([] : RSeries) = 0 from rfl]
    apply List.sum_eq_zero
    intro x hx
    obtain ⟨p, -, rfl⟩ := List.mem_map.1 hx
    rfl
  | cons e t ih =>
    intro labels hnd hcov
    have he := hcov e (List.mem_cons_self _ _)
    have hstep : labels.map
        (fun p => valsum ((e :: t).filter (fun x => decide (f.period x.1 = p)))) =
        labels.map (fun p => (if f.period e.1 = p then e.2.getD 0 else 0) +
          valsum (t.filter (fun x => decide (f.period x.1 = p)))) := by
      apply List.map_congr_left
      intro p _
      rw [List.filter_cons]
      by_cases hp : f.period e.1 = p
      · rw [if_pos (by simpa using hp), if_pos hp, valsum_cons]
      · rw [if_neg (by simpa using hp), if_neg hp, zero_add]
    rw [hstep, sum_map_add, sum_if_single hnd he,
      ih hnd (fun x hx => hcov x (List.mem_cons_of_mem _ hx)), valsum_cons]

theorem binLabels_nodup (f : Freq) (lo hi : ℕ) : (binLabels f lo hi).Nodup :=
  (List.nodup_range _).filter _

theorem mem_binLabels (f : Freq) {lo hi d : ℕ} (h1 : lo ≤ d) (h2 : d ≤ hi) :
    f.period d ∈ binLabels f lo hi := by
  unfold binLabels
  rw [List.mem_filter]
  refine ⟨List.mem_range.2 (Nat.lt_succ_of_le (f.mono h2)), ?_⟩
  simp only [decide_eq_true_eq]
  exact ⟨f.idem d, f.mono h1⟩

theorem valsum_resample_sum (f : Freq) (r : RSeries) :
    valsum (resample f Agg.sum r) = valsum r := by
  unfold resample
  rcases h1 : dLo (r.map Prod.fst) with - | lo
  · have hr : r = [] := List.map_eq_nil_iff.1 (dLo_eq_none.1 h1)
    subst hr
    rfl
  · rcases h2 : dHi (r.map Prod.fst) with - | hi
    · have hr : r = [] := List.map_eq_nil_iff.1 (dHi_eq_none.1 h2)
      subst hr
      cases h1
    · have hval : valsum ((binLabels f lo hi).map
          (fun p => (p, aggRun Agg.sum
            ((r.filter (fun e => decide (f.period e.1 = p))).map Prod.snd)))) =
          ((binLabels f lo hi).map
            (fun p => valsum (r.filter (fun e => decide (f.period e.1 = p))))).sum := by
        unfold valsum
        rw [List.map_map]
        apply congrArg List.sum
        apply List.map_congr_left
        intro p _
        show (aggRun Agg.sum
          ((r.filter (fun e => decide (f.period e.1 = p))).map Prod.snd)).getD 0 = _
        rw [aggRun_sum_getD, List.map_map]
        rfl
      rw [hval]
      apply sum_filter_partition f r (binLabels_nodup f lo hi)
      intro e hemem
      have hde : e.1 ∈ r.map Prod.fst := List.mem_map_of_mem Prod.fst hemem
      exact mem_binLabels f (dLo_le h1 hde) (dHi_ge h2 hde)

theorem reindexF_toR_some (dates : List ℕ) (base : List (ℕ × ℚ)) :
    ∀ p ∈ reindexF dates (toR base), ∃ q, p.2 = some q := by
  intro p hp
  obtain ⟨d, -, rfl⟩ := List.mem_map.1 hp
  rw [toR_lookup]
  rcases hl : List.lookup d base with - | v
  · exact ⟨0, rfl⟩
  · exact ⟨v, rfl⟩

theorem reindexF_toR_vals (dates : List ℕ) (base : List (ℕ × ℚ))
    (hnn : ∀ p ∈ base, 0 ≤ p.2) :
    ∀ p ∈ reindexF dates (toR base), ∃ q, p.2 = some q ∧ 0 ≤ q := by
  intro p hp
  obtain ⟨d, -, rfl⟩ := List.mem_map.1 hp
  rw [toR_lookup]
  rcases hl : List.lookup d base with - | v
  · exact ⟨0, rfl, le_rfl⟩
  · exact ⟨v, rfl, hnn (d, v) (mem_of_lookup_eq_some hl)⟩

theorem fillna0_resample_sum_nonneg (f : Freq) {r : RSeries}
    (h : ∀ p ∈ r, ∀ q, p.2 = some q → 0 ≤ q) :
    ∀ e ∈ fillna0 (resample f Agg.sum r), ∃ q, e.2 = some q ∧ 0 ≤ q := by
  intro e he
  obtain ⟨x, hx, rfl⟩ := List.mem_map.1 he
  refine ⟨x.2.getD 0, rfl, ?_⟩
  unfold resample at hx
  rcases h1 : dLo (r.map Prod.fst) with - | lo <;> rw [h1] at hx
  · cases hx
  · rcases h2 : dHi (r.map Prod.fst) with - | hi <;> rw [h2] at hx
    · cases hx
    · obtain ⟨p, -, rfl⟩ := List.mem_map.1 hx
      show (0 : ℚ) ≤ (aggRun Agg.sum
        ((r.filter (fun e => decide (f.period e.1 = p))).map Prod.snd)).getD 0
      rw [aggRun_sum_getD]
      apply List.sum_nonneg
      intro y hy
      obtain ⟨v, hv, rfl⟩ := List.mem_map.1 hy
      obtain ⟨p', hp', rfl⟩ := List.mem_map.1 hv
      rcases hvv : p'.2 with - | q
      · simp
      · simpa using h p' (List.mem_of_mem_filter hp') q hvv

theorem cumsum_dates (base : List (ℕ × ℚ)) {lo : ℕ} (today : ℕ)
    (hlo : dLo (base.map Prod.fst) = some lo) :
    (_cumsum (toR base) today).map Prod.fst = dailyRange lo today := by
  unfold _cumsum
  rw [toR_map_fst, hlo]
  show (cumsumAux 0 (reindexF (dailyRange lo today) (toR base))).map Prod.fst =
    dailyRange lo today
  rw [cumsum_map_fst]
  exact map_fst_map_pair _ _

theorem mem_unionDatesAsc {a b : RSeries} {d : ℕ} :
    d ∈ unionDatesAsc a b ↔ d ∈ a.map Prod.fst ∨ d ∈ b.map Prod.fst := by
  unfold unionDatesAsc
  rw [(List.perm_insertionSort _ _).mem_iff, List.mem_dedup, List.mem_append]

theorem mem_alignWith_dates {γ : Type} (g : Option ℚ → Option ℚ → γ)
    (a b : RSeries) {d : ℕ} (hd : d ∈ (alignWith g a b).map Prod.fst) :
    d ∈ a.map Prod.fst ∨ d ∈ b.map Prod.fst := by
  unfold alignWith at hd
  split at hd
  · obtain ⟨x, hx, he⟩ := List.mem_map.1 hd
    obtain ⟨y, hy, rfl⟩ := List.mem_map.1 hx
    exact Or.inl (he ▸ List.mem_map_of_mem Prod.fst (List.of_mem_zip hy).1)
  · rw [map_fst_map_pair] at hd
    exact mem_unionDatesAsc.1 hd

theorem resample_dates_nodup (f : Freq) (how : Agg) (s : RSeries) :
    ((resample f how s).map Prod.fst).Nodup := by
  unfold resample
  rcases dLo (s.map Prod.fst) with - | lo
  · exact List.nodup_nil
  · rcases dHi (s.map Prod.fst) with - | hi
    · exact List.nodup_nil
    · rw [map_fst_map_pair]
      exact binLabels_nodup f lo hi

theorem snd_unique_of_nodup {α : Type} {l : List (ℕ × α)}
    (hnd : (l.map Prod.fst).Nodup) {d : ℕ} {u v : α} (h1 : (d, u) ∈ l)
    (h2 : (d, v) ∈ l) : u = v := by
  have e1 := lookup_of_mem_nodup hnd h1
  have e2 := lookup_of_mem_nodup hnd h2
  rw [e1] at e2
  exact Option.some.inj e2

theorem fillna0_map_fst (s : RSeries) :
    (fillna0 s).map Prod.fst = s.map Prod.fst := by
  induction s with
  | nil => rfl
  | cons p t ih => simp only [fillna0, List.map_cons] at ih ⊢; rw [ih]

theorem scalarSub_map_fst (B : ℚ) (s : RSeries) :
    (scalarSub B s).map Prod.fst = s.map Prod.fst := by
  induction s with
  | nil => rfl
  | cons p t ih => simp only [scalarSub, List.map_cons] at ih ⊢; rw [ih]

theorem cumsumR_map_fst (s : RSeries) :
    (cumsumR s).map Prod.fst = s.map Prod.fst := cumsum_map_fst s 0

theorem ffill_map_fst : ∀ (s : RSeries) (acc : Option ℚ),
    (ffillAux acc s).map Prod.fst = s.map Prod.fst := by
  intro s
  induction s with
  | nil => intro acc; rfl
  | cons p t ih =>
    intro acc
    obtain ⟨d, v⟩ := p
    cases v with
    | none => simp only [ffillAux, List.map_cons, ih]
    | some q => simp only [ffillAux, List.map_cons, ih]

theorem mem_ffillAux_of_some : ∀ (s : RSeries) (acc : Option ℚ) {d : ℕ} {q : ℚ},
    (d, some q) ∈ s → (d, some q) ∈ ffillAux acc s := by
  intro s
  induction s with
  | nil => intro acc d q h; cases h
  | cons p t ih =>
    intro acc d q h
    obtain ⟨d', v⟩ := p
    cases v with
    | none =>
      rcases List.mem_cons.1 h with he | hm
      · cases (Prod.mk.injEq _ _ _ _ ▸ he).2
      · exact List.mem_cons_of_mem _ (ih acc hm)
    | some q' =>
      rcases List.mem_cons.1 h with he | hm
      · rw [he]
        exact List.mem_cons_self _ _
      · exact List.mem_cons_of_mem _ (ih (some q') hm)

theorem sortDesc_cons_max {s : RSeries} {D : ℕ} {v : Option ℚ}
    (hnd : (s.map Prod.fst).Nodup) (hmem : (D, v) ∈ s)
    (hmax : ∀ p ∈ s, p.1 ≤ D) : ∃ tl, sortDesc s = (D, v) :: tl := by
  have hperm : List.Perm (sortDesc s) s := List.perm_insertionSort descR s
  have hsorted : List.Sorted descR (sortDesc s) := List.sorted_insertionSort descR s
  have hmem' : (D, v) ∈ sortDesc s := hperm.mem_iff.2 hmem
  cases hcs : sortDesc s with
  | nil => rw [hcs] at hmem'; cases hmem'
  | cons hd tl =>
    rw [hcs] at hmem' hsorted hperm
    have hhd : hd ∈ s := hperm.mem_iff.1 (List.mem_cons_self _ _)
    rcases List.mem_cons.1 hmem' with he | hmem''
    · exact ⟨tl, by rw [← he]⟩
    · have hDle : D ≤ hd.1 := (List.sorted_cons.1 hsorted).1 (D, v) hmem''
      have h1 : hd.1 = D := le_antisymm (hmax hd hhd) hDle
      have hmemhd : (D, hd.2) ∈ s := by
        rw [← h1]
        simpa using hhd
      have h2 : hd.2 = v := snd_unique_of_nodup hnd hmemhd hmem
      refine ⟨tl, ?_⟩
      have he2 : hd = (D, v) := by
        rw [Prod.ext_iff]
        exact ⟨h1, h2⟩
      rw [he2]

theorem alignWith_dates_nodup {γ : Type} (g : Option ℚ → Option ℚ → γ)
    (a b : RSeries) (ha : (a.map Prod.fst).Nodup) :
    ((alignWith g a b).map Prod.fst).Nodup := by
  unfold alignWith
  split
  · rename_i h
    have hlen : a.length ≤ b.length := by
      have := congrArg List.length h
      simp only [List.length_map] at this
      omega
    have hz : (a.zip b).map Prod.fst = a := List.map_fst_zip a b hlen
    have he : ((a.zip b).map
        (fun pq => (pq.1.1, g pq.1.2 pq.2.2))).map Prod.fst = a.map Prod.fst := by
      rw [List.map_map,
        show ((Prod.fst ∘ fun pq : (ℕ × Option ℚ) × (ℕ × Option ℚ) =>
          (pq.1.1, g pq.1.2 pq.2.2))) = Prod.fst ∘ Prod.fst from rfl,
        ← List.map_map, hz]
    rw [he]
    exact ha
  · rw [map_fst_map_pair]
    exact (List.perm_insertionSort _ _).symm.nodup (List.nodup_dedup _)

theorem alignWith_cons_mem {γ : Type} (g : Option ℚ → Option ℚ → γ) (D : ℕ)
    (x y : Option ℚ) (a' b' : RSeries) :
    (D, g x y) ∈ alignWith g ((D, x) :: a') ((D, y) :: b') := by
  unfold alignWith
  split
  · simp only [List.zip_cons_cons, List.map_cons]
    exact List.mem_cons_self _ _
  · have hD : D ∈ unionDatesAsc ((D, x) :: a') ((D, y) :: b') :=
      mem_unionDatesAsc.2 (Or.inl (by simp))
    have hmm := List.mem_map_of_mem
      (fun d => (d, g (lookV ((D, x) :: a') d) (lookV ((D, y) :: b') d))) hD
    simpa [lookV, lookup_cons_self] using hmm

theorem zip_align_lookup {γ : Type} (g : Option ℚ → Option ℚ → γ) :
    ∀ (a b : RSeries), a.map Prod.fst = b.map Prod.fst →
      (a.map Prod.fst).Nodup → ∀ {p : ℕ}, p ∈ a.map Prod.fst →
      List.lookup p ((a.zip b).map (fun pq => (pq.1.1, g pq.1.2 pq.2.2))) =
        some (g (lookV a p) (lookV b p)) := by
  intro a
  induction a with
  | nil => intro b _ _ p hp; cases hp
  | cons e a' ih =>
    intro b heq hnd p hp
    obtain ⟨d, v⟩ := e
    cases b with
    | nil => simp at heq
    | cons e' b' =>
      obtain ⟨d', w⟩ := e'
      simp only [List.map_cons, List.cons.injEq] at heq
      obtain ⟨rfl, heq'⟩ := heq
      simp only [List.map_cons, List.nodup_cons] at hnd
      simp only [List.map_cons] at hp
      simp only [List.zip_cons_cons, List.map_cons]
      rcases List.mem_cons.1 hp with rfl | hp'
      · rw [lookup_cons_self]
        rw [show lookV ((p, v) :: a') p = v from by
            rw [lookV, lookup_cons_self]; rfl,
          show lookV ((p, w) :: b') p = w from by
            rw [lookV, lookup_cons_self]; rfl]
      · have hne : p ≠ d := fun he => hnd.1 (he ▸ hp')
        rw [lookup_cons_ne hne]
        rw [show lookV ((d, v) :: a') p = lookV a' p from by
            rw [lookV, lookV, lookup_cons_ne hne],
          show lookV ((d, w) :: b') p = lookV b' p from by
            rw [lookV, lookV, lookup_cons_ne hne]]
        exact ih b' heq' hnd.2 hp'

theorem alignWith_lookup {γ : Type} (g : Option ℚ → Option ℚ → γ)
    {a b : RSeries} (ha : (a.map Prod.fst).Nodup) {p : ℕ}
    (hp : p ∈ a.map Prod.fst ∨ p ∈ b.map Prod.fst) :
    List.lookup p (alignWith g a b) = some (g (lookV a p) (lookV b p)) := by
  unfold alignWith
  split
  · rename_i h
    have hp' : p ∈ a.map Prod.fst := by
      rcases hp with h' | h'
      · exact h'
      · rw [h]; exact h'
    exact zip_align_lookup g a b h ha hp'
  · exact lookup_map_fn _ (mem_unionDatesAsc.2 hp)

theorem lookup_filter_of_pred_true {α : Type} {l : List (ℕ × α)}
    (hnd : (l.map Prod.fst).Nodup) {d : ℕ} {v : α} (hm : (d, v) ∈ l)
    {pred : ℕ × α → Bool} (hp : pred (d, v) = true) :
    List.lookup d (l.filter pred) = some v := by
  apply lookup_of_mem_nodup
  · exact List.Nodup.sublist (List.Sublist.map _ (List.filter_sublist _)) hnd
  · exact List.mem_filter.2 ⟨hm, hp⟩

theorem lookup_filter_of_pred_false {α : Type} {l : List (ℕ × α)}
    (hnd : (l.map Prod.fst).Nodup) {d : ℕ} {v : α} (hm : (d, v) ∈ l)
    {pred : ℕ × α → Bool} (hp : pred (d, v) = false) :
    List.lookup d (l.filter pred) = none := by
  apply lookup_eq_none_of_not_mem
  intro hmem
  obtain ⟨x, hx, he⟩ := List.mem_map.1 hmem
  obtain ⟨d', u⟩ := x
  rw [show ((d', u) : ℕ × α).1 = d' from rfl] at he
  subst he
  have h2 := List.mem_filter.1 hx
  have hu : u = v := snd_unique_of_nodup hnd h2.1 hm
  rw [hu] at h2
  obtain ⟨-, hpt⟩ := h2
  rw [hp] at hpt
  cases hpt

/-! ## Claim theorems -/

/-- C1, counterexample.  With inflows `{day 1 ↦ 1}`, outflows `{day 1 ↦ 0}`,
anchor `B = 5` at `D = 1` (so the true backlog `5` at `D` is non-negative and
`D` is no earlier than a flow date), the pre-resampling pre-clamping series
holds `5 - 1 + 0 = 4` at `D`, not `B = 5`: the descending cumulative sums
include the anchor date's own flows. -/
theorem c1_anchor_counterexample :
    (0 : ℚ) ≤ 5 ∧ (1 : ℕ) ≤ 1 ∧
    List.lookup 1 (reverse_backlog_raw (toR [(1, 1)]) (toR [(1, 0)]) 5 1) =
      some (some 4) ∧
    List.lookup 1 (reverse_backlog_raw (toR [(1, 1)]) (toR [(1, 0)]) 5 1) ≠
      some (some 5) := by
  refine ⟨by norm_num, le_rfl, by with_unfolding_all rfl, by with_unfolding_all decide⟩

/-- C2, counterexample.  With inflows `{day 5 ↦ 1}` and outflows
`{day 3 ↦ 2}` the two cumulative series have disjoint indexes, so pandas
alignment makes every combined value `NaN`; forward fill cannot repair a
leading `NaN`, and the clamp leaves `NaN` alone, so the output of
`reverse_backlog` contains entries that hold no non-negative number at
all. -/
theorem c2_nonneg_counterexample :
    ¬ ∀ p ∈ reverse_backlog (toR [(5, 1)]) (toR [(3, 2)]) 0 5 Freq.daily,
        hasNonnegValue p.2 := by
  intro h
  have hm : ((3 : ℕ), (none : Option ℚ)) ∈
      reverse_backlog (toR [(5, 1)]) (toR [(3, 2)]) 0 5 Freq.daily := by
    with_unfolding_all decide
  obtain ⟨q, hq, -⟩ := h _ hm
  exact Option.noConfusion hq

/-- C2, amended.  Every value of `reverse_backlog` that is an actual number
is non-negative; `NaN` entries (dates with no number) can remain when the
inflow and outflow date sets differ. -/
theorem reverse_backlog_numeric_nonneg (inflows outflows : RSeries)
    (backlog_start : ℚ) (date_start : ℕ) (f : Freq) (p : ℕ × Option ℚ)
    (hp : p ∈ reverse_backlog inflows outflows backlog_start date_start f)
    (q : ℚ) (hq : p.2 = some q) : 0 ≤ q := by
  unfold reverse_backlog clamp0 at hp
  obtain ⟨e, -, he⟩ := List.mem_map.1 hp
  subst he
  simp only [Option.map_eq_some'] at hq
  obtain ⟨r, -, hr⟩ := hq
  subst hr
  split
  · exact le_rfl
  · exact le_of_not_lt (by assumption)

/-- C2, amended, witness. -/
theorem reverse_backlog_numeric_nonneg_witness : (0 : ℚ) ≤ 0 :=
  reverse_backlog_numeric_nonneg (toR [(0, 5)]) (toR [(0, 0)]) 0 0 Freq.daily
    (0, some 0) (by with_unfolding_all decide) 0 rfl

/-- C3, counterexample.  `reverse_backlog` on two empty flow series returns
the empty series: there is no date range at all, and in particular the
anchor date `2020-06-15` (day 10 here) does not map to `50`. -/
theorem c3_empty_counterexample :
    reverse_backlog (toR []) (toR []) 50 10 Freq.daily = [] ∧
    List.lookup 10 (reverse_backlog (toR []) (toR []) 50 10 Freq.daily) ≠
      some (some 50) := by
  exact ⟨rfl, by with_unfolding_all decide⟩

/-- C3, amended.  When both flow series are empty, `reverse_backlog` returns
the empty series for every anchor value, anchor date and frequency — it does
not produce a range of dates carrying the anchor value. -/
theorem reverse_backlog_empty_flows (backlog_start : ℚ) (date_start : ℕ)
    (f : Freq) :
    reverse_backlog (toR []) (toR []) backlog_start date_start f = [] := rfl

/-- C4, counterexample.  Inflows `{day 0 ↦ 2}`, outflows `{day 0 ↦ 1}`,
evaluated at day 2 with daily frequency: the mean arrival rate in period 1
is `0`, but the mean backlog there is `1`, so the division yields `+∞`,
which `dropna` does not remove — the period is present in `wait`'s output,
contradicting the claim that it is absent. -/
theorem c4_wait_counterexample :
    List.lookup 1
        (resample Freq.daily Agg.mean (arrivals (toR [(0, 2)]) 2 Freq.daily)) =
      some (some 0) ∧
    List.lookup 1 (wait (toR [(0, 2)]) (toR [(0, 1)]) 2 Freq.daily) =
      some FVal.pinf ∧
    List.lookup 1 (wait (toR [(0, 2)]) (toR [(0, 1)]) 2 Freq.daily) ≠ none := by
  refine ⟨by with_unfolding_all rfl, by with_unfolding_all rfl,
    by with_unfolding_all decide⟩

/-- C9, counterexample.  On an empty event table both grid bounds default to
"now" (day 100 here), and `pd.date_range(now, now)` has one point, not zero:
`flow_extract` returns the single-point series `{today ↦ 0}`, not the empty
series. -/
theorem c9_empty_table_counterexample :
    flow_extract [] false Freq.daily 100 = [(100, some 0)] ∧
    flow_extract [] false Freq.daily 100 ≠ ([] : RSeries) := by
  refine ⟨by with_unfolding_all rfl, by with_unfolding_all decide⟩

/-- C9, amended.  On an empty event table both grid bounds default to "now",
and the daily date range over `[now, now]` has exactly one point: for every
evaluation day and with or without a weight column, `flow_extract` returns
the single-point series mapping the normalized "now" to `0` (an empty series
arises only for a frequency whose grid has no aligned point in `[now, now]`),
rather than an empty series. -/
theorem flow_extract_empty_table (uw : Bool) (today : ℕ) :
    flow_extract [] uw Freq.daily today = [(today, some 0)] := by
  cases uw <;>
    simp [flow_extract, dLo, dHi, dateRange_self, resample, reindexN, lookV,
      fillna0]

/-- C5.  For a nonempty event table, the date domain of `flow_extract` is
exactly the freq time grid spanning the minimum and maximum timestamps, and
every grid date into whose period no (non-null-timestamp) raw event falls
carries the value `0`, not a missing value. -/
theorem flow_extract_grid_complete (rows : List Event) (uw : Bool) (f : Freq)
    (today lo hi : ℕ) (hlo : dLo (rows.filterMap Event.ts) = some lo)
    (hhi : dHi (rows.filterMap Event.ts) = some hi) :
    (flow_extract rows uw f today).map Prod.fst = dateRange f lo hi ∧
    ∀ g ∈ dateRange f lo hi,
      (∀ r ∈ rows, ∀ t, r.ts = some t → f.period t ≠ g) →
      List.lookup g (flow_extract rows uw f today) = some (some 0) := by
  constructor
  · simp only [flow_extract, hlo, hhi, Option.getD_some, fillna0_reindexN]
    exact map_fst_map_pair _ _
  · intro g hg hno
    simp only [flow_extract, hlo, hhi, Option.getD_some, fillna0_reindexN]
    rw [lookup_map_fn _ hg]
    cases uw
    · rw [if_neg (by simp)]
      rcases hlk : List.lookup g (resample f Agg.count
          ((rows.filterMap Event.ts).map (fun t => (t, some (1 : ℚ))))) with - | v
      · simp [lookV, hlk]
      · have hv := resample_lookup_eq hlk
        have hfe : ((rows.filterMap Event.ts).map (fun t => (t, some (1 : ℚ)))).filter
            (fun e => decide (f.period e.1 = g)) = [] := by
          rw [List.filter_eq_nil_iff]
          intro e he
          obtain ⟨t, ht, rfl⟩ := List.mem_map.1 he
          obtain ⟨r, hr, hrt⟩ := List.mem_filterMap.1 ht
          simpa using hno r hr t hrt
        rw [hfe] at hv
        simp only [List.map_nil, aggRun] at hv
        subst hv
        simp [lookV, hlk, aggRun]
    · rw [if_pos rfl]
      rcases hlk : List.lookup g (resample f Agg.sum
          (rows.filterMap
            (fun r => r.ts.bind (fun t => r.w.map (fun w => (t, some w)))))) with - | v
      · simp [lookV, hlk]
      · have hv := resample_lookup_eq hlk
        have hfe : (rows.filterMap
            (fun r => r.ts.bind (fun t => r.w.map (fun w => (t, some w))))).filter
            (fun e => decide (f.period e.1 = g)) = [] := by
          rw [List.filter_eq_nil_iff]
          intro e he
          obtain ⟨r, hr, hre⟩ := List.mem_filterMap.1 he
          rw [Option.bind_eq_some] at hre
          obtain ⟨t, hrt, hw⟩ := hre
          rw [Option.map_eq_some'] at hw
          obtain ⟨w, -, rfl⟩ := hw
          simpa using hno r hr t hrt
        rw [hfe] at hv
        simp only [List.map_nil, aggRun] at hv
        subst hv
        simp [lookV, hlk]

/-- C5, witness. -/
theorem flow_extract_grid_complete_witness :
    (flow_extract [⟨some 2, none⟩, ⟨none, some 3⟩, ⟨some 4, some 1⟩] false
        Freq.daily 9).map Prod.fst = dateRange Freq.daily 2 4 ∧
    List.lookup 3 (flow_extract [⟨some 2, none⟩, ⟨none, some 3⟩, ⟨some 4, some 1⟩]
        false Freq.daily 9) = some (some 0) :=
  ⟨(flow_extract_grid_complete _ false Freq.daily 9 2 4 (by decide) (by decide)).1,
   (flow_extract_grid_complete _ false Freq.daily 9 2 4 (by decide) (by decide)).2
     3 (by decide) (by decide)⟩

/-- C6.  For a nonempty flow series with non-negative values, the cumulative
series `_cumsum` has exactly the daily grid from the flow's minimum date
through today as its date domain, every entry holds an actual number, and
the held values are non-decreasing in date order. -/
theorem cumsum_monotone_domain (base : List (ℕ × ℚ)) (today lo : ℕ)
    (hlo : dLo (base.map Prod.fst) = some lo)
    (hnn : ∀ p ∈ base, 0 ≤ p.2) :
    (_cumsum (toR base) today).map Prod.fst = dailyRange lo today ∧
    (∀ p ∈ _cumsum (toR base) today, ∃ q, p.2 = some q ∧ 0 ≤ q) ∧
    List.Chain' (· ≤ ·) ((_cumsum (toR base) today).filterMap Prod.snd) := by
  have hsome : ∀ p ∈ reindexF (dailyRange lo today) (toR base),
      ∃ q, p.2 = some q ∧ 0 ≤ q := by
    intro p hp
    obtain ⟨d, -, rfl⟩ := List.mem_map.1 hp
    rw [toR_lookup]
    rcases hl : List.lookup d base with - | v
    · exact ⟨0, rfl, le_rfl⟩
    · refine ⟨v, rfl, ?_⟩
      have := mem_of_lookup_eq_some hl
      exact hnn (d, v) this
  have hun : _cumsum (toR base) today =
      cumsumAux 0 (reindexF (dailyRange lo today) (toR base)) := by
    unfold _cumsum
    rw [toR_map_fst, hlo]
    rfl
  refine ⟨?_, ?_, ?_⟩
  · rw [hun, cumsum_map_fst]
    exact map_fst_map_pair _ _
  · rw [hun]
    intro p hp
    exact cumsum_all_some hsome 0 p hp
  · rw [hun]
    exact cumsum_chain hsome 0

/-- C6, witness. -/
theorem cumsum_monotone_domain_witness :
    (_cumsum (toR [(2, 3), (4, 1)]) 6).map Prod.fst = dailyRange 2 6 ∧
    (∀ p ∈ _cumsum (toR [(2, 3), (4, 1)]) 6, ∃ q, p.2 = some q ∧ 0 ≤ q) ∧
    List.Chain' (· ≤ ·) ((_cumsum (toR [(2, 3), (4, 1)]) 6).filterMap Prod.snd) :=
  cumsum_monotone_domain [(2, 3), (4, 1)] 6 2 (by decide)
    (by with_unfolding_all decide)

/-- C10.  For a flow series with non-negative values, every value produced
by `throughput` and by `arrivals` holds an actual non-negative number: the
period values are sums of first differences of the non-decreasing cumulative
series, a missing predecessor counting as 0, and remaining gaps are filled
with 0. -/
theorem throughput_arrivals_nonneg (f : Freq) (base : List (ℕ × ℚ))
    (today : ℕ) (hnn : ∀ p ∈ base, 0 ≤ p.2) :
    (∀ e ∈ throughput (toR base) today f, ∃ q, e.2 = some q ∧ 0 ≤ q) ∧
    (∀ e ∈ arrivals (toR base) today f, ∃ q, e.2 = some q ∧ 0 ≤ q) := by
  have key : ∀ e ∈ fillna0 (resample f Agg.sum
      (alignWith subF0 (_cumsum (toR base) today)
        (shift1 (_cumsum (toR base) today)))),
      ∃ q, e.2 = some q ∧ 0 ≤ q := by
    apply fillna0_resample_sum_nonneg
    intro p hp q hq
    rw [alignWith_shift1] at hp
    unfold _cumsum at hp
    rcases h1 : dLo ((toR base).map Prod.fst) with - | lo <;> rw [h1] at hp
    · cases hp
    · have hws := reindexF_toR_vals (dailyRange lo today) base hnn
      have hvals := diffL_map_snd_cumsum0 (reindexF (dailyRange lo today) (toR base))
        (fun p hp => (hws p hp).imp (fun q h => h.1))
      have hmem : p.2 ∈ (reindexF (dailyRange lo today) (toR base)).map Prod.snd := by
        rw [← hvals]
        exact List.mem_map_of_mem Prod.snd hp
      obtain ⟨p', hp', hps⟩ := List.mem_map.1 hmem
      obtain ⟨q', hq', h0⟩ := hws p' hp'
      rw [hq'] at hps
      rw [hq] at hps
      rw [Option.some.injEq] at hps
      exact hps ▸ h0
  exact ⟨fun e he => key e he, fun e he => key e he⟩

/-- C10, witness. -/
theorem throughput_arrivals_nonneg_witness :
    (∀ e ∈ throughput (toR [(0, 2)]) 2 Freq.daily, ∃ q, e.2 = some q ∧ 0 ≤ q) ∧
    (∀ e ∈ arrivals (toR [(0, 2)]) 2 Freq.daily, ∃ q, e.2 = some q ∧ 0 ≤ q) :=
  throughput_arrivals_nonneg Freq.daily [(0, 2)] 2 (by with_unfolding_all decide)

/-- C7.  For a nonempty flow series starting no later than the evaluation
day, the sum of all values of `throughput` equals the final (last-date)
value of the cumulative series `_cumsum`, and likewise for `arrivals`: the
first differences telescope back to the total. -/
theorem throughput_arrivals_roundtrip (f : Freq) (base : List (ℕ × ℚ))
    (today lo : ℕ) (hlo : dLo (base.map Prod.fst) = some lo)
    (hle : lo ≤ today) :
    valsum (throughput (toR base) today f) = lastVal (_cumsum (toR base) today) ∧
    valsum (arrivals (toR base) today f) = lastVal (_cumsum (toR base) today) := by
  have hc : _cumsum (toR base) today =
      cumsumAux 0 (reindexF (dailyRange lo today) (toR base)) := by
    unfold _cumsum
    rw [toR_map_fst, hlo]
    rfl
  have hwsome := reindexF_toR_some (dailyRange lo today) base
  have hwne : reindexF (dailyRange lo today) (toR base) ≠ [] := by
    intro hcon
    have hlen := congrArg List.length hcon
    simp only [reindexF, List.length_map, dailyRange, List.length_range',
      List.length_nil] at hlen
    omega
  have key : valsum (fillna0 (resample f Agg.sum
      (alignWith subF0 (_cumsum (toR base) today)
        (shift1 (_cumsum (toR base) today))))) =
      lastVal (_cumsum (toR base) today) := by
    rw [valsum_fillna0, valsum_resample_sum, alignWith_shift1, hc]
    have h1 : valsum (diffL none
        (cumsumAux 0 (reindexF (dailyRange lo today) (toR base)))) =
        valsum (reindexF (dailyRange lo today) (toR base)) :=
      valsum_eq_of_map_snd_eq (diffL_map_snd_cumsum0 _ hwsome)
    rw [h1, cumsum_lastVal (reindexF (dailyRange lo today) (toR base)) hwsome 0 hwne,
      zero_add]
  exact ⟨key, key⟩

/-- C7, witness. -/
theorem throughput_arrivals_roundtrip_witness :
    valsum (throughput (toR [(0, 2), (1, 3)]) 3 Freq.daily) =
      lastVal (_cumsum (toR [(0, 2), (1, 3)]) 3) ∧
    valsum (arrivals (toR [(0, 2), (1, 3)]) 3 Freq.daily) =
      lastVal (_cumsum (toR [(0, 2), (1, 3)]) 3) :=
  throughput_arrivals_roundtrip Freq.daily [(0, 2), (1, 3)] 3 0 (by decide)
    (by decide)

/-- C8, counterexample.  With inflows and outflows both `{day 0 ↦ 1}` and
evaluation day 5, the cumulative series are extended through day 5 before
the subtraction, and the final clip uses the extended series' own min/max
dates, so the unanchored `backlog` reports day 5 — far outside the span
`[0, 0]` of dates actually observed in the inputs. -/
theorem c8_range_counterexample :
    5 ∈ (backlog (toR [(0, 1)]) (toR [(0, 1)]) 5 Freq.daily).map Prod.fst ∧
    dHi (((toR [(0, (1 : ℚ))]).map Prod.fst) ++
      ((toR [(0, (1 : ℚ))]).map Prod.fst)) = some 0 ∧ ¬ (5 : ℕ) ≤ 0 := by
  refine ⟨by with_unfolding_all decide, by decide, by decide⟩

/-- C8, amended.  Every date reported by the unanchored `backlog` lies
between the earliest date of the two flow series and the evaluation day
"today" (the clip is to the min/max of the today-extended difference
series, not to the span actually observed in the inputs). -/
theorem backlog_dates_bounded (f : Freq) (infl outf : List (ℕ × ℚ))
    (today li lo d : ℕ) (hli : dLo (infl.map Prod.fst) = some li)
    (hlo : dLo (outf.map Prod.fst) = some lo)
    (hd : d ∈ (backlog (toR infl) (toR outf) today f).map Prod.fst) :
    min li lo ≤ d ∧ d ≤ today := by
  have hLdates : ∀ x ∈ (alignWith subF0 (_cumsum (toR infl) today)
      (_cumsum (toR outf) today)).map Prod.fst, min li lo ≤ x ∧ x ≤ today := by
    intro x hx
    rcases mem_alignWith_dates _ _ _ hx with h | h
    · rw [cumsum_dates infl today hli] at h
      have := mem_dailyRange.1 h
      exact ⟨le_trans (min_le_left _ _) this.1, this.2⟩
    · rw [cumsum_dates outf today hlo] at h
      have := mem_dailyRange.1 h
      exact ⟨le_trans (min_le_right _ _) this.1, this.2⟩
  simp only [backlog] at hd
  rcases hb : dLo ((alignWith subF0 (_cumsum (toR infl) today)
      (_cumsum (toR outf) today)).map Prod.fst) with - | b <;> rw [hb] at hd
  · -- the difference series is empty, so the result is empty
    have hnil : (alignWith subF0 (_cumsum (toR infl) today)
        (_cumsum (toR outf) today)) = [] :=
      List.map_eq_nil_iff.1 (dLo_eq_none.1 hb)
    rw [hnil] at hd
    cases hd
  · rcases he : dHi ((alignWith subF0 (_cumsum (toR infl) today)
        (_cumsum (toR outf) today)).map Prod.fst) with - | e <;> rw [he] at hd
    · have hnil : (alignWith subF0 (_cumsum (toR infl) today)
          (_cumsum (toR outf) today)) = [] :=
        List.map_eq_nil_iff.1 (dHi_eq_none.1 he)
      rw [hnil] at hd
      cases hd
    · obtain ⟨x, hx, rfl⟩ := List.mem_map.1 hd
      have hx' := List.mem_filter.1 hx
      have hrange := of_decide_eq_true hx'.2
      have hbm := hLdates b (dLo_mem hb)
      have hem := hLdates e (dHi_mem he)
      exact ⟨le_trans hbm.1 hrange.1, le_trans hrange.2 hem.2⟩

/-- C8, amended, witness. -/
theorem backlog_dates_bounded_witness : min 0 0 ≤ 5 ∧ (5 : ℕ) ≤ 5 :=
  backlog_dates_bounded Freq.daily [(0, 1)] [(0, 1)] 5 0 0 5 (by decide)
    (by decide) (by with_unfolding_all decide)

/-- C1, amended.  When the anchor date `D` carries inflow `i` and outflow
`o` (and series dates are unique), the pre-resampling pre-clamping series of
`reverse_backlog` holds exactly `B - i + o` at `D` — the descending
cumulative sums include the anchor date's own flows, so the anchor value `B`
itself is reproduced at `D` exactly when the flows on `D` cancel. -/
theorem reverse_backlog_raw_anchor (infl outf : List (ℕ × ℚ)) (B : ℚ) (D : ℕ)
    (i o : ℚ) (hni : (infl.map Prod.fst).Nodup)
    (hno : (outf.map Prod.fst).Nodup) (hi : (D, i) ∈ infl)
    (ho : (D, o) ∈ outf) :
    List.lookup D (reverse_backlog_raw (toR infl) (toR outf) B D) =
      some (some (B - i + o)) := by
  have htin : (D, some i) ∈ trunc D (toR infl) :=
    List.mem_filter.2 ⟨List.mem_map_of_mem _ hi, by simp⟩
  have htout : (D, some o) ∈ trunc D (toR outf) :=
    List.mem_filter.2 ⟨List.mem_map_of_mem _ ho, by simp⟩
  have hndin : ((trunc D (toR infl)).map Prod.fst).Nodup := by
    apply List.Nodup.sublist (List.Sublist.map _ (List.filter_sublist _))
    rw [toR_map_fst]
    exact hni
  have hndout : ((trunc D (toR outf)).map Prod.fst).Nodup := by
    apply List.Nodup.sublist (List.Sublist.map _ (List.filter_sublist _))
    rw [toR_map_fst]
    exact hno
  have hmaxin : ∀ p ∈ trunc D (toR infl), p.1 ≤ D := fun p hp =>
    of_decide_eq_true (List.mem_filter.1 hp).2
  have hmaxout : ∀ p ∈ trunc D (toR outf), p.1 ≤ D := fun p hp =>
    of_decide_eq_true (List.mem_filter.1 hp).2
  obtain ⟨tl1, htl1⟩ := sortDesc_cons_max hndin htin hmaxin
  obtain ⟨tl2, htl2⟩ := sortDesc_cons_max hndout htout hmaxout
  have hci : cumsumR (fillna0 (sortDesc (trunc D (toR infl)))) =
      (D, some (0 + i)) :: cumsumAux (0 + i) (fillna0 tl1) := by
    rw [htl1]
    rfl
  have hco : cumsumR (fillna0 (sortDesc (trunc D (toR outf)))) =
      (D, some (0 + o)) :: cumsumAux (0 + o) (fillna0 tl2) := by
    rw [htl2]
    rfl
  have key : (D, addOpt (some (B - (0 + i))) (some (0 + o))) ∈
      alignWith addOpt
        (scalarSub B (cumsumR (fillna0 (sortDesc (trunc D (toR infl))))))
        (cumsumR (fillna0 (sortDesc (trunc D (toR outf))))) := by
    rw [hci, hco]
    rw [show scalarSub B ((D, some (0 + i)) :: cumsumAux (0 + i) (fillna0 tl1)) =
      (D, some (B - (0 + i))) :: scalarSub B (cumsumAux (0 + i) (fillna0 tl1))
      from rfl]
    exact alignWith_cons_mem addOpt D _ _ _ _
  have hnda : ((alignWith addOpt
      (scalarSub B (cumsumR (fillna0 (sortDesc (trunc D (toR infl))))))
      (cumsumR (fillna0 (sortDesc (trunc D (toR outf)))))).map
        Prod.fst).Nodup := by
    apply alignWith_dates_nodup
    rw [scalarSub_map_fst, cumsumR_map_fst, fillna0_map_fst]
    exact ((List.perm_insertionSort descR _).map Prod.fst).symm.nodup hndin
  have key2 : (D, some (B - (0 + i) + (0 + o))) ∈
      ffill (alignWith addOpt
        (scalarSub B (cumsumR (fillna0 (sortDesc (trunc D (toR infl))))))
        (cumsumR (fillna0 (sortDesc (trunc D (toR outf)))))) :=
    mem_ffillAux_of_some _ none key
  have key3 : (D, some (B - (0 + i) + (0 + o))) ∈
      sortAsc (ffill (alignWith addOpt
        (scalarSub B (cumsumR (fillna0 (sortDesc (trunc D (toR infl))))))
        (cumsumR (fillna0 (sortDesc (trunc D (toR outf))))))) :=
    (List.perm_insertionSort ascR _).mem_iff.2 key2
  have hnds : ((sortAsc (ffill (alignWith addOpt
      (scalarSub B (cumsumR (fillna0 (sortDesc (trunc D (toR infl))))))
      (cumsumR (fillna0 (sortDesc (trunc D (toR outf)))))))).map
        Prod.fst).Nodup := by
    have h1 := (List.perm_insertionSort ascR (ffill (alignWith addOpt
      (scalarSub B (cumsumR (fillna0 (sortDesc (trunc D (toR infl))))))
      (cumsumR (fillna0 (sortDesc (trunc D (toR outf)))))))).map Prod.fst
    rw [show ffill (alignWith addOpt
      (scalarSub B (cumsumR (fillna0 (sortDesc (trunc D (toR infl))))))
      (cumsumR (fillna0 (sortDesc (trunc D (toR outf)))))) =
      ffillAux none (alignWith addOpt
      (scalarSub B (cumsumR (fillna0 (sortDesc (trunc D (toR infl))))))
      (cumsumR (fillna0 (sortDesc (trunc D (toR outf)))))) from rfl,
      ffill_map_fst] at h1
    exact h1.symm.nodup hnda
  have hfin := lookup_of_mem_nodup hnds key3
  show List.lookup D (sortAsc (ffill (alignWith addOpt
    (scalarSub B (cumsumR (fillna0 (sortDesc (trunc D (toR infl))))))
    (cumsumR (fillna0 (sortDesc (trunc D (toR outf)))))))) =
    some (some (B - i + o))
  rw [hfin]
  norm_num

/-- C1, amended, witness. -/
theorem reverse_backlog_raw_anchor_witness :
    List.lookup 1 (reverse_backlog_raw (toR [(1, 1)]) (toR [(1, 0)]) 5 1) =
      some (some (5 - 1 + 0)) :=
  reverse_backlog_raw_anchor [(1, 1)] [(1, 0)] 5 1 1 0 (by decide) (by decide)
    (by with_unfolding_all decide) (by with_unfolding_all decide)

/-- C4, amended.  At a period where the mean arrival rate is exactly 0, the
`wait` series has no entry only when the mean backlog there is missing or 0
(so that the division is `0/0 = NaN`, removed by `dropna`); when the mean
backlog is positive, the division gives `+∞`, which `dropna` keeps, and the
period is present with value `+∞`. -/
theorem wait_zero_arrival_drop (f : Freq) (infl outf : List (ℕ × ℚ))
    (today p : ℕ)
    (hk : List.lookup p (resample f Agg.mean (arrivals (toR infl) today f)) =
      some (some 0)) :
    ((lookV (resample f Agg.mean (backlog (toR infl) (toR outf) today f)) p =
        none ∨
      lookV (resample f Agg.mean (backlog (toR infl) (toR outf) today f)) p =
        some 0) →
      List.lookup p (wait (toR infl) (toR outf) today f) = none) ∧
    (∀ l : ℚ,
      lookV (resample f Agg.mean (backlog (toR infl) (toR outf) today f)) p =
        some l → 0 < l →
      List.lookup p (wait (toR infl) (toR outf) today f) = some FVal.pinf) := by
  have hndL := resample_dates_nodup f Agg.mean
    (backlog (toR infl) (toR outf) today f)
  have hpk : p ∈ (resample f Agg.mean (arrivals (toR infl) today f)).map
      Prod.fst := List.mem_map_of_mem Prod.fst (mem_of_lookup_eq_some hk)
  have halign := alignWith_lookup wdiv hndL (Or.inr hpk)
  have hkv : lookV (resample f Agg.mean (arrivals (toR infl) today f)) p =
      some 0 := by
    rw [lookV, hk]
    rfl
  have hw := mem_of_lookup_eq_some halign
  have hndw := alignWith_dates_nodup wdiv
    (resample f Agg.mean (backlog (toR infl) (toR outf) today f))
    (resample f Agg.mean (arrivals (toR infl) today f)) hndL
  constructor
  · intro hcase
    have hnan : wdiv
        (lookV (resample f Agg.mean (backlog (toR infl) (toR outf) today f)) p)
        (lookV (resample f Agg.mean (arrivals (toR infl) today f)) p) =
        FVal.nan := by
      rcases hcase with h | h <;> rw [h, hkv] <;> simp [wdiv]
    show List.lookup p ((alignWith wdiv
        (resample f Agg.mean (backlog (toR infl) (toR outf) today f))
        (resample f Agg.mean (arrivals (toR infl) today f))).filter
        (fun x => decide (x.2 ≠ FVal.nan))) = none
    apply lookup_filter_of_pred_false hndw hw
    simp [hnan]
  · intro l hl hpos
    have hpinf : wdiv
        (lookV (resample f Agg.mean (backlog (toR infl) (toR outf) today f)) p)
        (lookV (resample f Agg.mean (arrivals (toR infl) today f)) p) =
        FVal.pinf := by
      rw [hl, hkv]
      simp [wdiv, hpos, hpos.ne']
    show List.lookup p ((alignWith wdiv
        (resample f Agg.mean (backlog (toR infl) (toR outf) today f))
        (resample f Agg.mean (arrivals (toR infl) today f))).filter
        (fun x => decide (x.2 ≠ FVal.nan))) = some FVal.pinf
    rw [← hpinf]
    apply lookup_filter_of_pred_true hndw hw
    simp [hpinf]

/-- C4, amended, witness. -/
theorem wait_zero_arrival_drop_witness :
    List.lookup 1 (wait (toR [(0, 2)]) (toR [(0, 2)]) 2 Freq.daily) = none :=
  (wait_zero_arrival_drop Freq.daily [(0, 2)] [(0, 2)] 2 1
    (by with_unfolding_all rfl)).1 (Or.inr (by with_unfolding_all rfl))

end Grigri
